import Mathlib

/-!
Verification development for an Advent-of-Code 2022 day-12 hill-climbing
path search (Rust, `src/lib.rs`).  The Rust code is shallowly embedded:
`usize` arithmetic is `Nat` with explicit wrapping modulo `2^64`, `u8`
casts are `% 256`, `HashSet<Position>` is a duplicate-free `List Position`
(insertion only adds unseen elements, so length and membership agree with
the set), `Vec<Vec<_>>` is `List (List _)`, and every Rust `panic!` or
`unwrap` failure is an explicit error value (`Except.error` for parsing,
`Res.panic` for the search).  The recursive search carries an explicit
fuel argument as a totality device; fuel `2^64` can never be exhausted
because the recursion depth is bounded by the `usize` depth guard.
-/

namespace AoC12

/-- `2^64`, the number of `usize` values. -/
def U : Nat := 18446744073709551616

/-- `usize::MAX`, the sentinel used by the Rust code for "unreachable". -/
def usizeMax : Nat := U - 1

/-- Wrapping `usize` increment (`x + 1` on `usize`). -/
def wadd1 (n : Nat) : Nat := (n + 1) % U

/-- Wrapping `usize` decrement (`x - 1` on `usize`). -/
def wsub1 (n : Nat) : Nat := if n = 0 then usizeMax else n - 1

/-- Wrapping `u8` decrement (`b - 1` on `u8`). -/
def wsub8 (n : Nat) : Nat := if n = 0 then 255 else n - 1

/-- `c as u8` for a Rust `char`. -/
def u8 (c : Char) : Nat := c.toNat % 256

/-- The `Move` enum from `lib.rs`. -/
inductive Move where
  | up
  | down
  | left
  | right
deriving DecidableEq, Repr

/-- The `Position` struct from `lib.rs` (`x`, `y` are `usize`). -/
structure Position where
  x : Nat
  y : Nat
deriving DecidableEq, Repr

/-- The `Surface` struct from `lib.rs`. -/
structure Surface where
  best_signal : Position
  heights : List (List Char)
deriving DecidableEq, Repr

/-- The `Player` struct from `lib.rs`; the `HashSet<Position>` of previous
positions is modelled as a duplicate-free list. -/
structure Player where
  position : Position
  previous : List Position
deriving DecidableEq, Repr

/-- `Surface::width`: `self.heights[0].len()`. -/
def Surface.width (s : Surface) : Nat := (s.heights.getD 0 []).length

/-- `Surface::height`: `self.heights.len()`. -/
def Surface.height (s : Surface) : Nat := s.heights.length

/-- Rust `str::lines` on the character list: split at `\n` or `\r\n`,
with an optional final line terminator producing no trailing empty line. -/
def rlines : List Char → List (List Char)
  | [] => []
  | '\x0d' :: '\x0a' :: cs => [] :: rlines cs
  | c :: cs =>
      if c = '\x0a' then [] :: rlines cs
      else
        match rlines cs with
        | [] => [[c]]
        | l :: ls => (c :: l) :: ls

/-- The per-character conversion inside `Surface::new`: lowercase kept,
`'S' ↦ 'a'`, `'E' ↦ 'z'`, anything else panics (modelled as an error). -/
def convChar (c : Char) : Except String Char :=
  if 'a' ≤ c ∧ c ≤ 'z' then .ok c
  else if c = 'S' then .ok 'a'
  else if c = 'E' then .ok 'z'
  else .error "Invalid character"

/-- `map`/`collect` over a closure that can panic: elements are converted
left to right and the first panic (error) aborts the collection. -/
def collectE (f : α → Except String β) : List α → Except String (List β)
  | [] => .ok []
  | a :: as =>
      match f a with
      | .error e => .error e
      | .ok b =>
          match collectE f as with
          | .error e => .error e
          | .ok bs => .ok (b :: bs)

/-- Rust `line.contains(c)` on a list of characters. -/
def containsC (c : Char) : List Char → Bool
  | [] => false
  | a :: as => a = c || containsC c as

/-- Rust `line.find(c)`: index of the first occurrence of `c` (for the
ASCII lines at hand the byte index equals the character index). -/
def findIdxC (c : Char) : List Char → Option Nat
  | [] => none
  | a :: as => if a = c then some 0 else (findIdxC c as).map (· + 1)

/-- `.lines().filter(pred).next()`: the first line satisfying `pred`. -/
def findLine (pred : List Char → Bool) : List (List Char) → Option (List Char)
  | [] => none
  | l :: ls => if pred l then some l else findLine pred ls

/-- `.lines().enumerate().filter(..).map(|(i,_)| i).next()`: the index of
the first line satisfying `pred`. -/
def findLineIdx (pred : List Char → Bool) : List (List Char) → Option Nat
  | [] => none
  | l :: ls => if pred l then some 0 else (findLineIdx pred ls).map (· + 1)

/-- `Surface::new`: convert every character, then locate the first `'E'`
(first line containing it, first occurrence in that line); the Rust
`unwrap`s on a missing `'E'` are modelled as errors. -/
def Surface.new (t : String) : Except String Surface :=
  match collectE (fun l => collectE convChar l) (rlines t.data) with
  | .error e => .error e
  | .ok heights =>
    match findLine (containsC 'E') (rlines t.data) with
    | none => .error "no line contains E"
    | some lE =>
      match findIdxC 'E' lE with
      | none => .error "E not found in line"
      | some x =>
        match findLineIdx (containsC 'E') (rlines t.data) with
        | none => .error "no line contains E"
        | some y => .ok { best_signal := ⟨x, y⟩, heights := heights }

/-- `Player::new`: locate the first `'S'` the same way `Surface::new`
locates `'E'`; missing `'S'` (an `unwrap` panic in Rust) is an error. -/
def Player.new (t : String) : Except String Player :=
  match findLine (containsC 'S') (rlines t.data) with
  | none => .error "no line contains S"
  | some lS =>
    match findIdxC 'S' lS with
    | none => .error "S not found in line"
    | some x =>
      match findLineIdx (containsC 'S') (rlines t.data) with
      | none => .error "no line contains S"
      | some y => .ok { position := ⟨x, y⟩, previous := [] }

/-- `Player::step`: insert the current position into `previous` and move
one cell with wrapping `usize` arithmetic — no bounds check whatsoever. -/
def Player.step (p : Player) (m : Move) : Player :=
  { position :=
      match m with
      | .up => ⟨p.position.x, wsub1 p.position.y⟩
      | .down => ⟨p.position.x, wadd1 p.position.y⟩
      | .left => ⟨wsub1 p.position.x, p.position.y⟩
      | .right => ⟨wadd1 p.position.x, p.position.y⟩
    previous :=
      if p.position ∈ p.previous then p.previous else p.position :: p.previous }

/-- `surface.heights[pos.y][pos.x]`; out-of-bounds reads (panics in Rust)
return a junk default, and every theorem needing this read stays in bounds. -/
def heightAt (s : Surface) (pos : Position) : Char :=
  (s.heights.getD pos.y []).getD pos.x (Char.ofNat 0)

/-- The `height_check` closure of `available_moves`, on `u8` values:
ascend `this + 1 >= next`, descend `this - 1 <= next` (wrapping). -/
def height_check (up : Bool) (thisH nextH : Char) : Bool :=
  if up then decide ((u8 thisH + 1) % 256 ≥ u8 nextH)
  else decide (wsub8 (u8 thisH) ≤ u8 nextH)

/-- Stable insertion into a list sorted ascending by the `u8` key of the
second component (the observable behaviour of the Rust
`sort_unstable_by_key` on these ≤ 4 element lists). -/
def insertByKey (x : Move × Char) : List (Move × Char) → List (Move × Char)
  | [] => [x]
  | y :: ys => if u8 x.2 ≤ u8 y.2 then x :: y :: ys else y :: insertByKey x ys

/-- Stable insertion sort, ascending by the `u8` of the carried height. -/
def sortByKey : List (Move × Char) → List (Move × Char)
  | [] => []
  | x :: xs => insertByKey x (sortByKey xs)

/-- The four guarded pushes of `Player::available_moves`, in source push
order right, left, down, up: each in-grid neighbour passing `height_check`
is paired with its height. -/
def candidate_moves (p : Player) (s : Surface) (up : Bool) : List (Move × Char) :=
  let thisH := heightAt s p.position
  let right_height := heightAt s ⟨p.position.x + 1, p.position.y⟩
  let left_height := heightAt s ⟨p.position.x - 1, p.position.y⟩
  let down_height := heightAt s ⟨p.position.x, p.position.y + 1⟩
  let up_height := heightAt s ⟨p.position.x, p.position.y - 1⟩
  (if p.position.x < wsub1 s.width ∧ height_check up thisH right_height then
    [(Move.right, right_height)] else [])
  ++ (if 0 < p.position.x ∧ height_check up thisH left_height then
    [(Move.left, left_height)] else [])
  ++ (if p.position.y < wsub1 s.height ∧ height_check up thisH down_height then
    [(Move.down, down_height)] else [])
  ++ (if 0 < p.position.y ∧ height_check up thisH up_height then
    [(Move.up, up_height)] else [])

/-- `Player::available_moves`: gather the legal `(move, height)` pairs in
push order right, left, down, up; sort ascending by height; reverse and
drop the heights. -/
def Player.available_moves (p : Player) (s : Surface) (up : Bool) : List Move :=
  ((sortByKey (candidate_moves p s up)).reverse).map Prod.fst

/-- The `Vec<Vec<usize>>` distance map. -/
abbrev Distmap := List (List Nat)

/-- `distmap[y][x]` (total model of the panicking index). -/
def dget (d : Distmap) (pos : Position) : Nat := (d.getD pos.y []).getD pos.x 0

/-- `distmap[pos.y][pos.x] = v`; out-of-range writes change nothing. -/
def dset (d : Distmap) (pos : Position) (v : Nat) : Distmap :=
  d.set pos.y ((d.getD pos.y []).set pos.x v)

/-- Outcome of one `shortest_path` call: a returned `usize` together with
the distance map after the call, a Rust panic, or fuel exhaustion (the
latter never happens at fuel `2^64`). -/
inductive Res where
  | ok (n : Nat) (d : Distmap)
  | panic
  | fuelOut
deriving DecidableEq, Repr

/-- The returned value of a `Res`, distance map dropped. -/
inductive Outcome where
  | val (n : Nat)
  | panic
  | fuelOut
deriving DecidableEq, Repr

/-- Project a `Res` to its `Outcome`. -/
def Res.outcome : Res → Outcome
  | .ok n _ => .val n
  | .panic => .panic
  | .fuelOut => .fuelOut

/-- The `for m in self.available_moves(..)` loop body of
`Player::shortest_path`: `sp` is the recursive call at one less fuel,
`newMax` the branch-and-bound bound tightened by `min`, `paths` the
accumulated results; an empty `paths` at the end makes
`paths.iter().min().unwrap()` panic. -/
def goMoves (sp : Player → Nat → Distmap → Res) (p : Player) :
    List Move → Nat → Distmap → List Nat → Res
  | [], _, d, paths =>
      match paths.min? with
      | some r => .ok r d
      | none => .panic
  | m :: ms, newMax, d, paths =>
      match sp (p.step m) newMax d with
      | .ok r d2 => goMoves sp p ms (min r newMax) d2 (paths ++ [r])
      | .panic => .panic
      | .fuelOut => .fuelOut

/-- `Player::shortest_path` with explicit fuel: the four early-return
guards (goal reached, position revisited, depth bound, distance-map
prune), then the distance-map write and the recursive loop. -/
def shortest_path (s : Surface) (endC : Position → Surface → Bool) (up : Bool) :
    Nat → Player → Nat → Distmap → Res
  | 0, _, _, _ => .fuelOut
  | fuel + 1, p, maxDepth, d =>
      if endC p.position s then .ok p.previous.length d
      else if p.position ∈ p.previous then .ok usizeMax d
      else if wsub1 maxDepth ≤ p.previous.length then .ok usizeMax d
      else if dget d p.position ≤ p.previous.length then .ok usizeMax d
      else goMoves (shortest_path s endC up fuel) p (p.available_moves s up)
             maxDepth (dset d p.position p.previous.length) []

/-- The `at_top` goal predicate of `find_shortest_path_up`. -/
def at_top (pos : Position) (s : Surface) : Bool := decide (pos = s.best_signal)

/-- The `at_bottom` goal predicate of `find_shortest_path_down`. -/
def at_bottom (pos : Position) (s : Surface) : Bool := decide (heightAt s pos = 'a')

/-- The all-`usize::MAX` initial distance map built by both entry points. -/
def initDistmap (s : Surface) : Distmap :=
  (List.range s.height).map (fun _ => (List.range s.width).map (fun _ => usizeMax))

/-- Fuel passed at top level; never exhausted (depth ≤ `usize::MAX`). -/
def FUEL : Nat := U

/-- `Player::find_shortest_path_up`. -/
def Player.find_shortest_path_up (p : Player) (s : Surface) : Res :=
  shortest_path s at_top true FUEL p usizeMax (initDistmap s)

/-- `Player::find_shortest_path_down`. -/
def Player.find_shortest_path_down (p : Player) (s : Surface) : Res :=
  shortest_path s at_bottom false FUEL p usizeMax (initDistmap s)

/-- Top-level `shortest_path_up`. -/
def shortest_path_up (t : String) : Except String Res := do
  let player ← Player.new t
  let surface ← Surface.new t
  .ok (player.find_shortest_path_up surface)

/-- Top-level `shortest_path_down`. -/
def shortest_path_down (t : String) : Except String Res := do
  let surface ← Surface.new t
  .ok (Player.find_shortest_path_down ⟨surface.best_signal, []⟩ surface)

/-- Observable outcome of a top-level run: `none` for a parse failure,
otherwise the search's `Outcome`. -/
def runOutcome : Except String Res → Option Outcome
  | .ok r => some r.outcome
  | .error _ => none

/-- The canonical 5×8 example grid from the doc tests. -/
def canonical : String := "Sabqponm\nabcryxxl\naccszExk\nacctuvwj\nabdefghi"

/-! ### Spec-side vocabulary

The following definitions phrase the specification's wording (grid
well-formedness, the in-grid neighbour relation and the legality rule) so
that the claims can be stated and compared against the embedded code. -/

/-- A character the spec's alphabet recognises: lowercase letter, start
marker `'S'`, or target marker `'E'`. -/
def validCharP (c : Char) : Prop := ('a' ≤ c ∧ c ≤ 'z') ∨ c = 'S' ∨ c = 'E'

instance (c : Char) : Decidable (validCharP c) := by unfold validCharP; infer_instance

/-- The pure value `Surface::new` stores for a recognised character. -/
def convPure (c : Char) : Char :=
  if 'a' ≤ c ∧ c ≤ 'z' then c else if c = 'S' then 'a' else 'z'

/-- Every row of the surface has length `Surface.width`. -/
def Rectangular (s : Surface) : Prop := ∀ row ∈ s.heights, row.length = s.width

/-- Every stored elevation is a lowercase letter (`'a'` is code point 97,
`'z'` is 122), as on a well-formed surface. -/
def LowercaseHeights (s : Surface) : Prop :=
  ∀ row ∈ s.heights, ∀ c ∈ row, 97 ≤ c.toNat ∧ c.toNat ≤ 122

/-- The position lies inside the grid. -/
def InBounds (s : Surface) (pos : Position) : Prop :=
  pos.x < s.width ∧ pos.y < s.height

instance (s : Surface) : Decidable (Rectangular s) := by
  unfold Rectangular
  infer_instance

instance (s : Surface) : Decidable (LowercaseHeights s) := by
  unfold LowercaseHeights
  infer_instance

instance (s : Surface) (pos : Position) : Decidable (InBounds s pos) := by
  unfold InBounds
  infer_instance

/-- The spec's in-grid neighbour in a given direction: `none` when the
neighbour would fall outside the grid. -/
def specNeighbor (s : Surface) (pos : Position) : Move → Option Position
  | .right => if pos.x + 1 < s.width then some ⟨pos.x + 1, pos.y⟩ else none
  | .left => if 0 < pos.x then some ⟨pos.x - 1, pos.y⟩ else none
  | .down => if pos.y + 1 < s.height then some ⟨pos.x, pos.y + 1⟩ else none
  | .up => if 0 < pos.y then some ⟨pos.x, pos.y - 1⟩ else none

/-- The spec's legality rule on elevations: ascend mode `next ≤ cur + 1`,
descend mode `next ≥ cur - 1`. -/
def specLegal (up : Bool) (cur next : Char) : Prop :=
  if up then next.toNat ≤ cur.toNat + 1 else cur.toNat - 1 ≤ next.toNat

/-- The reverse of a direction, for the direction-reversal symmetry. -/
def oppMove : Move → Move
  | .up => .down
  | .down => .up
  | .left => .right
  | .right => .left

set_option maxRecDepth 100000

/-! ### Helper lemmas about `available_moves` -/

lemma mem_if_singleton {c : Prop} [Decidable c] {a b : α} :
    (a ∈ if c then [b] else []) ↔ c ∧ a = b := by
  split <;> simp_all

lemma mem_insertByKey {a x : Move × Char} {l : List (Move × Char)} :
    a ∈ insertByKey x l ↔ a = x ∨ a ∈ l := by
  induction l with
  | nil => simp [insertByKey]
  | cons y ys ih =>
      simp only [insertByKey]
      split
      · simp [List.mem_cons]
      · simp only [List.mem_cons, ih]
        tauto

lemma mem_sortByKey {a : Move × Char} {l : List (Move × Char)} :
    a ∈ sortByKey l ↔ a ∈ l := by
  induction l with
  | nil => simp [sortByKey]
  | cons x xs ih => simp [sortByKey, mem_insertByKey, ih]

/-- Membership in `available_moves` is membership of a `(move, height)`
pair in the candidate list (sorting and reversing permute it). -/
lemma mem_available_moves_pair {p : Player} {s : Surface} {up : Bool} {m : Move} :
    m ∈ p.available_moves s up ↔ ∃ h, (m, h) ∈ candidate_moves p s up := by
  simp only [Player.available_moves, List.mem_map, List.mem_reverse, mem_sortByKey]
  constructor
  · rintro ⟨⟨m1, h⟩, hmem, rfl⟩
    exact ⟨h, hmem⟩
  · rintro ⟨h, hmem⟩
    exact ⟨(m, h), hmem, rfl⟩

/-- The candidate list, characterised per direction: the pair is present
iff the in-grid guard and `height_check` hold and the height is the
neighbour's height. -/
lemma mem_candidate_iff {p : Player} {s : Surface} {up : Bool} {m : Move} {h : Char} :
    (m, h) ∈ candidate_moves p s up ↔
      ((m = Move.right ∧ p.position.x < wsub1 s.width ∧
          height_check up (heightAt s p.position)
            (heightAt s ⟨p.position.x + 1, p.position.y⟩) ∧
          h = heightAt s ⟨p.position.x + 1, p.position.y⟩) ∨
       (m = Move.left ∧ 0 < p.position.x ∧
          height_check up (heightAt s p.position)
            (heightAt s ⟨p.position.x - 1, p.position.y⟩) ∧
          h = heightAt s ⟨p.position.x - 1, p.position.y⟩) ∨
       (m = Move.down ∧ p.position.y < wsub1 s.height ∧
          height_check up (heightAt s p.position)
            (heightAt s ⟨p.position.x, p.position.y + 1⟩) ∧
          h = heightAt s ⟨p.position.x, p.position.y + 1⟩) ∨
       (m = Move.up ∧ 0 < p.position.y ∧
          height_check up (heightAt s p.position)
            (heightAt s ⟨p.position.x, p.position.y - 1⟩) ∧
          h = heightAt s ⟨p.position.x, p.position.y - 1⟩)) := by
  simp only [candidate_moves, List.mem_append, mem_if_singleton, Prod.mk.injEq]
  constructor
  · rintro
      (((⟨⟨hg, hc⟩, rfl, rfl⟩ | ⟨⟨hg, hc⟩, rfl, rfl⟩) | ⟨⟨hg, hc⟩, rfl, rfl⟩) |
        ⟨⟨hg, hc⟩, rfl, rfl⟩)
    · exact Or.inl ⟨rfl, hg, hc, rfl⟩
    · exact Or.inr (Or.inl ⟨rfl, hg, hc, rfl⟩)
    · exact Or.inr (Or.inr (Or.inl ⟨rfl, hg, hc, rfl⟩))
    · exact Or.inr (Or.inr (Or.inr ⟨rfl, hg, hc, rfl⟩))
  · rintro
      (⟨rfl, hg, hc, rfl⟩ | ⟨rfl, hg, hc, rfl⟩ | ⟨rfl, hg, hc, rfl⟩ | ⟨rfl, hg, hc, rfl⟩)
    · exact Or.inl (Or.inl (Or.inl ⟨⟨hg, hc⟩, rfl, rfl⟩))
    · exact Or.inl (Or.inl (Or.inr ⟨⟨hg, hc⟩, rfl, rfl⟩))
    · exact Or.inl (Or.inr ⟨⟨hg, hc⟩, rfl, rfl⟩)
    · exact Or.inr ⟨⟨hg, hc⟩, rfl, rfl⟩

/-- The elevation stored at an in-bounds position of a rectangular
lowercase surface is a lowercase code point. -/
lemma heightAt_lowercase {s : Surface} {q : Position} (hrect : Rectangular s)
    (hlc : LowercaseHeights s) (hq : InBounds s q) :
    97 ≤ (heightAt s q).toNat ∧ (heightAt s q).toNat ≤ 122 := by
  obtain ⟨hx, hy⟩ := hq
  have hylen : q.y < s.heights.length := hy
  have hrow : s.heights.getD q.y [] = s.heights[q.y] := List.getD_eq_getElem _ _ hylen
  have hrowmem : s.heights[q.y] ∈ s.heights := List.getElem_mem hylen
  have hxlen : q.x < (s.heights[q.y]).length := by
    rw [hrect _ hrowmem]; exact hx
  have hcell : heightAt s q = (s.heights[q.y])[q.x] := by
    rw [heightAt, hrow]; exact List.getD_eq_getElem _ _ hxlen
  rw [hcell]
  exact hlc _ hrowmem _ (List.getElem_mem hxlen)

/-- `height_check` agrees with the spec's legality rule on lowercase
elevations. -/
lemma height_check_iff_specLegal {up : Bool} {cur next : Char}
    (hcur : 97 ≤ cur.toNat ∧ cur.toNat ≤ 122)
    (hnext : 97 ≤ next.toNat ∧ next.toNat ≤ 122) :
    (height_check up cur next = true) ↔ specLegal up cur next := by
  obtain ⟨h1, h2⟩ := hcur
  obtain ⟨h3, h4⟩ := hnext
  have e1 : u8 cur = cur.toNat := Nat.mod_eq_of_lt (by omega)
  have e2 : u8 next = next.toNat := Nat.mod_eq_of_lt (by omega)
  have e3 : (cur.toNat + 1) % 256 = cur.toNat + 1 := Nat.mod_eq_of_lt (by omega)
  cases up
  case false =>
    show decide (wsub8 (u8 cur) ≤ u8 next) = true ↔ cur.toNat - 1 ≤ next.toNat
    rw [e1, e2]
    unfold wsub8
    rw [if_neg (show ¬ cur.toNat = 0 by omega), decide_eq_true_eq]
  case true =>
    show decide ((u8 cur + 1) % 256 ≥ u8 next) = true ↔ next.toNat ≤ cur.toNat + 1
    rw [e1, e2, e3, decide_eq_true_eq, ge_iff_le]

/-- Central characterisation: a move is returned by `available_moves` iff
its destination is the in-grid neighbour in that direction and the spec's
legality rule holds between the two elevations. -/
lemma mem_available_moves_spec {s : Surface} {p : Player} {up : Bool}
    (hrect : Rectangular s) (hlc : LowercaseHeights s) (hb : InBounds s p.position) :
    ∀ m : Move, m ∈ p.available_moves s up ↔
      ∃ q, specNeighbor s p.position m = some q ∧
        specLegal up (heightAt s p.position) (heightAt s q) := by
  obtain ⟨hx, hy⟩ := hb
  have hwpos : s.width ≠ 0 := by omega
  have hhpos : s.height ≠ 0 := by omega
  have hcur := heightAt_lowercase hrect hlc ⟨hx, hy⟩
  have hguardR : p.position.x < wsub1 s.width ↔ p.position.x + 1 < s.width := by
    rw [wsub1, if_neg hwpos]; omega
  have hguardD : p.position.y < wsub1 s.height ↔ p.position.y + 1 < s.height := by
    rw [wsub1, if_neg hhpos]; omega
  intro m
  rw [mem_available_moves_pair]
  cases m
  case up =>
    have hnb : InBounds s ⟨p.position.x, p.position.y - 1⟩ :=
      ⟨hx, show p.position.y - 1 < s.height by omega⟩
    have hbr := @height_check_iff_specLegal up _ _ hcur (heightAt_lowercase hrect hlc hnb)
    simp only [mem_candidate_iff, specNeighbor]
    constructor
    · rintro ⟨h, hcase⟩
      rcases hcase with ⟨hne, _⟩ | ⟨hne, _⟩ | ⟨hne, _⟩ | ⟨_, hg, hc, rfl⟩
      · exact absurd hne (by decide)
      · exact absurd hne (by decide)
      · exact absurd hne (by decide)
      · exact ⟨_, by rw [if_pos hg], hbr.mp hc⟩
    · rintro ⟨q, hq, hleg⟩
      by_cases hg : 0 < p.position.y
      · rw [if_pos hg] at hq
        cases Option.some.inj hq
        exact ⟨_, Or.inr (Or.inr (Or.inr ⟨trivial, hg, hbr.mpr hleg, rfl⟩))⟩
      · rw [if_neg hg] at hq
        exact absurd hq (by simp)
  case down =>
    simp only [mem_candidate_iff, specNeighbor]
    constructor
    · rintro ⟨h, hcase⟩
      rcases hcase with ⟨hne, _⟩ | ⟨hne, _⟩ | ⟨_, hg, hc, rfl⟩ | ⟨hne, _⟩
      · exact absurd hne (by decide)
      · exact absurd hne (by decide)
      · have hg2 : p.position.y + 1 < s.height := hguardD.mp hg
        have hnb : InBounds s ⟨p.position.x, p.position.y + 1⟩ := ⟨hx, hg2⟩
        have hbr := @height_check_iff_specLegal up _ _ hcur (heightAt_lowercase hrect hlc hnb)
        exact ⟨_, by rw [if_pos hg2], hbr.mp hc⟩
      · exact absurd hne (by decide)
    · rintro ⟨q, hq, hleg⟩
      by_cases hg2 : p.position.y + 1 < s.height
      · rw [if_pos hg2] at hq
        cases Option.some.inj hq
        have hnb : InBounds s ⟨p.position.x, p.position.y + 1⟩ := ⟨hx, hg2⟩
        have hbr := @height_check_iff_specLegal up _ _ hcur (heightAt_lowercase hrect hlc hnb)
        exact ⟨_, Or.inr (Or.inr (Or.inl ⟨trivial, hguardD.mpr hg2, hbr.mpr hleg, rfl⟩))⟩
      · rw [if_neg hg2] at hq
        exact absurd hq (by simp)
  case left =>
    have hnb : InBounds s ⟨p.position.x - 1, p.position.y⟩ :=
      ⟨show p.position.x - 1 < s.width by omega, hy⟩
    have hbr := @height_check_iff_specLegal up _ _ hcur (heightAt_lowercase hrect hlc hnb)
    simp only [mem_candidate_iff, specNeighbor]
    constructor
    · rintro ⟨h, hcase⟩
      rcases hcase with ⟨hne, _⟩ | ⟨_, hg, hc, rfl⟩ | ⟨hne, _⟩ | ⟨hne, _⟩
      · exact absurd hne (by decide)
      · exact ⟨_, by rw [if_pos hg], hbr.mp hc⟩
      · exact absurd hne (by decide)
      · exact absurd hne (by decide)
    · rintro ⟨q, hq, hleg⟩
      by_cases hg : 0 < p.position.x
      · rw [if_pos hg] at hq
        cases Option.some.inj hq
        exact ⟨_, Or.inr (Or.inl ⟨trivial, hg, hbr.mpr hleg, rfl⟩)⟩
      · rw [if_neg hg] at hq
        exact absurd hq (by simp)
  case right =>
    simp only [mem_candidate_iff, specNeighbor]
    constructor
    · rintro ⟨h, hcase⟩
      rcases hcase with ⟨_, hg, hc, rfl⟩ | ⟨hne, _⟩ | ⟨hne, _⟩ | ⟨hne, _⟩
      · have hg2 : p.position.x + 1 < s.width := hguardR.mp hg
        have hnb : InBounds s ⟨p.position.x + 1, p.position.y⟩ := ⟨hg2, hy⟩
        have hbr := @height_check_iff_specLegal up _ _ hcur (heightAt_lowercase hrect hlc hnb)
        exact ⟨_, by rw [if_pos hg2], hbr.mp hc⟩
      · exact absurd hne (by decide)
      · exact absurd hne (by decide)
      · exact absurd hne (by decide)
    · rintro ⟨q, hq, hleg⟩
      by_cases hg2 : p.position.x + 1 < s.width
      · rw [if_pos hg2] at hq
        cases Option.some.inj hq
        have hnb : InBounds s ⟨p.position.x + 1, p.position.y⟩ := ⟨hg2, hy⟩
        have hbr := @height_check_iff_specLegal up _ _ hcur (heightAt_lowercase hrect hlc hnb)
        exact ⟨_, Or.inl ⟨trivial, hguardR.mpr hg2, hbr.mpr hleg, rfl⟩⟩
      · rw [if_neg hg2] at hq
        exact absurd hq (by simp)

/-- The spec's legality rule is symmetric under direction reversal. -/
lemma specLegal_reverse {a b : Char} : specLegal true a b ↔ specLegal false b a := by
  show b.toNat ≤ a.toNat + 1 ↔ b.toNat - 1 ≤ a.toNat
  omega

lemma lt_U_of_le_usizeMax {n : Nat} (h : n ≤ usizeMax) : n < U := by
  unfold usizeMax U at *
  omega

/-- `available_moves` membership, rephrased through a known neighbour. -/
lemma mem_avail_of_neighbor (s : Surface) (p : Player) (up : Bool)
    (hrect : Rectangular s) (hlc : LowercaseHeights s) (hb : InBounds s p.position)
    (m : Move) (q : Position) (hq : specNeighbor s p.position m = some q) :
    m ∈ p.available_moves s up ↔
      specLegal up (heightAt s p.position) (heightAt s q) := by
  rw [mem_available_moves_spec hrect hlc hb m]
  constructor
  · rintro ⟨r, hr, hl⟩
    rw [hq] at hr
    cases Option.some.inj hr
    exact hl
  · intro hl
    exact ⟨q, hq, hl⟩

/-- Inserting into a list sorted ascending by the `u8` key keeps it
sorted. -/
lemma insertByKey_sorted {x : Move × Char} {l : List (Move × Char)}
    (h : (l.map (fun y => u8 y.2)).Sorted (· ≤ ·)) :
    ((insertByKey x l).map (fun y => u8 y.2)).Sorted (· ≤ ·) := by
  induction l with
  | nil => simp [insertByKey, List.Sorted]
  | cons y ys ih =>
      rw [List.map_cons, List.sorted_cons] at h
      obtain ⟨hy, hys⟩ := h
      simp only [insertByKey]
      split
      case isTrue hle =>
        rw [List.map_cons, List.sorted_cons]
        refine ⟨?_, ?_⟩
        · intro b hb
          rw [List.map_cons] at hb
          rcases List.mem_cons.mp hb with rfl | hb
          · exact hle
          · exact le_trans hle (hy b hb)
        · rw [List.map_cons, List.sorted_cons]
          exact ⟨hy, hys⟩
      case isFalse hgt =>
        rw [List.map_cons, List.sorted_cons]
        refine ⟨?_, ih hys⟩
        intro b hb
        rcases List.mem_map.mp hb with ⟨a, ha, rfl⟩
        rcases mem_insertByKey.mp ha with rfl | ha
        · exact le_of_not_le hgt
        · exact hy _ (List.mem_map_of_mem _ ha)

/-- The sort of `available_moves` produces an ascending `u8` key list. -/
lemma sortByKey_sorted (l : List (Move × Char)) :
    ((sortByKey l).map (fun y => u8 y.2)).Sorted (· ≤ ·) := by
  induction l with
  | nil => simp [sortByKey, List.Sorted]
  | cons x xs ih =>
      simp only [sortByKey]
      exact insertByKey_sorted ih

/-- Each candidate pair carries exactly the elevation of the cell the move
steps to (the `usize` increments do not wrap on a small grid). -/
lemma candidate_snd_eq (s : Surface) (p : Player) (up : Bool)
    (hrect : Rectangular s) (hlc : LowercaseHeights s) (hb : InBounds s p.position)
    (hw : s.width ≤ usizeMax) (hh : s.height ≤ usizeMax) :
    ∀ x ∈ candidate_moves p s up,
      u8 x.2 = (heightAt s ((p.step x.1).position)).toNat := by
  obtain ⟨hx, hy⟩ := hb
  rintro ⟨m, h⟩ hmem
  show u8 h = (heightAt s ((p.step m).position)).toNat
  rw [mem_candidate_iff] at hmem
  rcases hmem with ⟨rfl, hg, _, rfl⟩ | ⟨rfl, hg, _, rfl⟩ | ⟨rfl, hg, _, rfl⟩ |
    ⟨rfl, hg, _, rfl⟩
  · have hg2 : p.position.x + 1 < s.width := by
      unfold wsub1 at hg
      rw [if_neg (show ¬ s.width = 0 by omega)] at hg
      omega
    have hstep : (p.step Move.right).position = Position.mk (p.position.x + 1) p.position.y := by
      show Position.mk (wadd1 p.position.x) p.position.y = _
      unfold wadd1
      rw [Nat.mod_eq_of_lt (Nat.lt_trans hg2 (lt_U_of_le_usizeMax hw))]
    rw [hstep]
    exact Nat.mod_eq_of_lt
      (by have := heightAt_lowercase hrect hlc (⟨hg2, hy⟩ :
            InBounds s ⟨p.position.x + 1, p.position.y⟩)
          omega)
  · have hstep : (p.step Move.left).position = Position.mk (p.position.x - 1) p.position.y := by
      show Position.mk (wsub1 p.position.x) p.position.y = _
      unfold wsub1
      rw [if_neg (show ¬ p.position.x = 0 by omega)]
    rw [hstep]
    exact Nat.mod_eq_of_lt
      (by have := heightAt_lowercase hrect hlc
            (⟨show p.position.x - 1 < s.width by omega, hy⟩ :
              InBounds s ⟨p.position.x - 1, p.position.y⟩)
          omega)
  · have hg2 : p.position.y + 1 < s.height := by
      unfold wsub1 at hg
      rw [if_neg (show ¬ s.height = 0 by omega)] at hg
      omega
    have hstep : (p.step Move.down).position = Position.mk p.position.x (p.position.y + 1) := by
      show Position.mk p.position.x (wadd1 p.position.y) = _
      unfold wadd1
      rw [Nat.mod_eq_of_lt (Nat.lt_trans hg2 (lt_U_of_le_usizeMax hh))]
    rw [hstep]
    exact Nat.mod_eq_of_lt
      (by have := heightAt_lowercase hrect hlc (⟨hx, hg2⟩ :
            InBounds s ⟨p.position.x, p.position.y + 1⟩)
          omega)
  · have hstep : (p.step Move.up).position = Position.mk p.position.x (p.position.y - 1) := by
      show Position.mk p.position.x (wsub1 p.position.y) = _
      unfold wsub1
      rw [if_neg (show ¬ p.position.y = 0 by omega)]
    rw [hstep]
    exact Nat.mod_eq_of_lt
      (by have := heightAt_lowercase hrect hlc
            (⟨hx, show p.position.y - 1 < s.height by omega⟩ :
              InBounds s ⟨p.position.x, p.position.y - 1⟩)
          omega)

/-! ### Parsing lemmas (C3, C5) -/

lemma containsC_eq_true {c : Char} {l : List Char} : containsC c l = true ↔ c ∈ l := by
  induction l with
  | nil => simp [containsC]
  | cons a as ih =>
      simp only [containsC, Bool.or_eq_true, decide_eq_true_eq, ih, List.mem_cons]
      tauto

lemma containsC_eq_false {c : Char} {l : List Char} (h : c ∉ l) :
    containsC c l = false := by
  rcases hb : containsC c l with _ | _
  · rfl
  · exact absurd (containsC_eq_true.mp hb) h

lemma convChar_ok_iff {c : Char} : (∃ b, convChar c = .ok b) ↔ validCharP c := by
  unfold convChar validCharP
  split_ifs with h1 h2 h3 <;> simp_all

lemma convChar_ok_of_valid {c : Char} (h : validCharP c) :
    convChar c = .ok (convPure c) := by
  unfold convChar convPure validCharP at *
  split_ifs with h1 h2 <;> simp_all

lemma collectE_ok_iff {α β : Type} {f : α → Except String β} {l : List α} :
    (∃ bs, collectE f l = .ok bs) ↔ ∀ a ∈ l, ∃ b, f a = .ok b := by
  induction l with
  | nil => simp [collectE]
  | cons a as ih =>
      simp only [collectE, List.forall_mem_cons]
      cases hfa : f a with
      | error e => simp [hfa]
      | ok b =>
          cases hrest : collectE f as with
          | error e =>
              simp only [hfa]
              simp [← ih, hrest]
          | ok bs =>
              simp only [hfa]
              simp [← ih, hrest]

lemma collectE_ok_map {α β : Type} {f : α → Except String β} {g : α → β} {l : List α}
    (h : ∀ a ∈ l, f a = .ok (g a)) : collectE f l = .ok (l.map g) := by
  induction l with
  | nil => rfl
  | cons a as ih =>
      simp only [collectE, h a (List.mem_cons_self a as),
        ih (fun x hx => h x (List.mem_cons_of_mem a hx)), List.map_cons]

lemma findLine_isSome {pred : List Char → Bool} {ls : List (List Char)} :
    (findLine pred ls).isSome = ls.any pred := by
  induction ls with
  | nil => rfl
  | cons a as ih =>
      simp only [findLine, List.any_cons]
      split
      case isTrue h => simp [h]
      case isFalse h => simp [h, ih]

lemma findLineIdx_isSome {pred : List Char → Bool} {ls : List (List Char)} :
    (findLineIdx pred ls).isSome = ls.any pred := by
  induction ls with
  | nil => rfl
  | cons a as ih =>
      simp only [findLineIdx, List.any_cons]
      split
      case isTrue h => simp [h]
      case isFalse h => simp [h, ih]

lemma findIdxC_isSome {c : Char} {l : List Char} :
    (findIdxC c l).isSome = containsC c l := by
  induction l with
  | nil => rfl
  | cons a as ih =>
      simp only [findIdxC, containsC]
      split
      case isTrue h => simp [h]
      case isFalse h => simp [h, ih]

lemma findLine_pred {pred : List Char → Bool} {ls : List (List Char)} {l : List Char}
    (h : findLine pred ls = some l) : pred l = true ∧ l ∈ ls := by
  induction ls with
  | nil => cases h
  | cons a as ih =>
      simp only [findLine] at h
      split at h
      case isTrue hp =>
        cases h
        exact ⟨hp, List.mem_cons_self _ _⟩
      case isFalse hp =>
        obtain ⟨h1, h2⟩ := ih h
        exact ⟨h1, List.mem_cons_of_mem _ h2⟩

lemma findLine_first {pred : List Char → Bool} {pre post : List (List Char)}
    {l : List Char} (hpre : ∀ x ∈ pre, pred x = false) (hl : pred l = true) :
    findLine pred (pre ++ l :: post) = some l := by
  induction pre with
  | nil => simp [findLine, hl]
  | cons a as ih =>
      simp only [List.cons_append, findLine]
      rw [if_neg (by simp [hpre a (List.mem_cons_self a as)])]
      exact ih (fun x hx => hpre x (List.mem_cons_of_mem a hx))

lemma findLineIdx_first {pred : List Char → Bool} {pre post : List (List Char)}
    {l : List Char} (hpre : ∀ x ∈ pre, pred x = false) (hl : pred l = true) :
    findLineIdx pred (pre ++ l :: post) = some pre.length := by
  induction pre with
  | nil => simp [findLineIdx, hl]
  | cons a as ih =>
      simp only [List.cons_append, findLineIdx, List.length_cons, List.append_eq]
      rw [if_neg (by simp [hpre a (List.mem_cons_self a as)])]
      rw [ih (fun x hx => hpre x (List.mem_cons_of_mem a hx))]
      rfl

lemma findIdxC_first {c : Char} {pre post : List Char} (hpre : c ∉ pre) :
    findIdxC c (pre ++ c :: post) = some pre.length := by
  induction pre with
  | nil => simp [findIdxC]
  | cons a as ih =>
      simp only [List.cons_append, findIdxC, List.length_cons, List.append_eq]
      rw [if_neg (show ¬ a = c from fun he => hpre (by rw [← he] at *; exact List.mem_cons_self a as))]
      rw [ih (fun hx => hpre (List.mem_cons_of_mem a hx))]
      rfl

lemma getD_append_length {α : Type} {l1 l2 : List α} {a : α} {d : α} :
    (l1 ++ a :: l2).getD l1.length d = a := by
  induction l1 with
  | nil => rfl
  | cons x xs ih =>
      simp only [List.cons_append, List.length_cons, List.getD_cons_succ]
      exact ih

set_option maxHeartbeats 16000000 in
/-- **C1**: on the canonical 5×8 grid, `shortest_path_up` returns 31 and
`shortest_path_down` returns 29 (no parse failure, no panic). -/
theorem c1_canonical_paths :
    runOutcome (shortest_path_up canonical) = some (.val 31) ∧
    runOutcome (shortest_path_down canonical) = some (.val 29) := by
  constructor
  · decide
  · decide

/-- **C2**: on the well-formed 2×2 grid `"Sc\ncE"` no path satisfies the
goal, yet the search panics (`paths.iter().min().unwrap()` on an empty
`paths` when the start cell has no legal move) instead of returning the
`usize::MAX` sentinel. -/
theorem c2_no_path_panics :
    runOutcome (shortest_path_up "Sc\ncE") = some .panic := by decide

/-- **C3** counterexample: an input whose rows have unequal length and
which contains no start marker at all is accepted by `Surface::new`
(producing a ragged array), contradicting the claim that such inputs are
rejected as malformed. -/
theorem c3_ragged_input_accepted :
    Surface.new "ab\nE" = .ok ⟨⟨0, 1⟩, [['a', 'b'], ['z']]⟩ := rfl

/-- **C3** amended: `Surface::new` fails (panics) exactly when the input
contains a character outside {lowercase, `'S'`, `'E'`} or no line contains
a target marker `'E'`; row lengths are not validated (ragged rows are
accepted silently), `'S'` markers are not inspected at all, a surplus
`'E'` silently resolves to the first one — and in particular the 1×1 grid
`"S"` is rejected (missing `'E'`), not parsed to a result. -/
theorem c3_surface_new_failure_characterization :
    (∀ t : String, (∃ srf, Surface.new t = .ok srf) ↔
      ((∀ l ∈ rlines t.data, ∀ c ∈ l, validCharP c) ∧
        ∃ l ∈ rlines t.data, 'E' ∈ l)) := by
  intro t
  unfold Surface.new
  cases hc : collectE (fun l => collectE convChar l) (rlines t.data) with
  | error e =>
      constructor
      · rintro ⟨srf, hsrf⟩
        cases hsrf
      · rintro ⟨hval, _⟩
        have hok : ∃ hs, collectE (fun l => collectE convChar l) (rlines t.data)
            = .ok hs := by
          rw [collectE_ok_iff]
          intro a ha
          rw [show (∃ b, collectE convChar a = Except.ok b) =
            (∃ b, collectE convChar a = Except.ok b) from rfl, collectE_ok_iff]
          intro cch hcch
          exact convChar_ok_iff.mpr (hval a ha cch hcch)
        obtain ⟨hs, hhs⟩ := hok
        rw [hc] at hhs
        cases hhs
  | ok hs =>
      cases hfl : findLine (containsC 'E') (rlines t.data) with
      | none =>
          constructor
          · rintro ⟨srf, hsrf⟩
            cases hsrf
          · rintro ⟨hval, l, hl, hEl⟩
            have hsome : (findLine (containsC 'E') (rlines t.data)).isSome = true := by
              rw [findLine_isSome]
              exact List.any_eq_true.mpr ⟨l, hl, containsC_eq_true.mpr hEl⟩
            rw [hfl] at hsome
            cases hsome
      | some lE =>
          have hplE := findLine_pred hfl
          cases hfi : findIdxC 'E' lE with
          | none =>
              have hsome : (findIdxC 'E' lE).isSome = true := by
                rw [findIdxC_isSome]
                exact hplE.1
              rw [hfi] at hsome
              cases hsome
          | some x =>
              cases hfli : findLineIdx (containsC 'E') (rlines t.data) with
              | none =>
                  have hsame : (findLineIdx (containsC 'E') (rlines t.data)).isSome
                      = (findLine (containsC 'E') (rlines t.data)).isSome := by
                    rw [findLine_isSome, findLineIdx_isSome]
                  rw [hfli, hfl] at hsame
                  cases hsame
              | some y =>
                  constructor
                  · intro _
                    refine ⟨?_, lE, hplE.2, containsC_eq_true.mp hplE.1⟩
                    intro l hl cch hcc
                    obtain ⟨bs, hbs⟩ := collectE_ok_iff.mp ⟨hs, hc⟩ l hl
                    exact convChar_ok_iff.mp (collectE_ok_iff.mp ⟨bs, hbs⟩ cch hcc)
                  · intro _
                    refine ⟨Surface.mk ⟨x, y⟩ hs, ?_⟩
                    simp only [hfi, hfli]

/-- **C5**: for a valid elevation text — every line of common length `L`,
all characters recognised, the first `'E'` at column `preE.length` of line
`pre.length`, the first `'S'` at column `preS2.length` of line
`preS.length` — `Surface::new` succeeds with one row per input line, every
row of length `L` (so the width equals the input's maximum line length),
the target position carrying elevation `'z'`, and the start position
(as located by `Player::new`) carrying elevation `'a'`. -/
theorem c5_surface_new_valid_parse (t : String) (L : Nat)
    (pre post : List (List Char)) (lE preE postE : List Char)
    (preS postS : List (List Char)) (lS preS2 postS2 : List Char)
    (hdecE : rlines t.data = pre ++ lE :: post)
    (hlineE : lE = preE ++ 'E' :: postE)
    (hpreE : ∀ l ∈ pre, 'E' ∉ l)
    (hpreE2 : 'E' ∉ preE)
    (hdecS : rlines t.data = preS ++ lS :: postS)
    (hlineS : lS = preS2 ++ 'S' :: postS2)
    (hpreS : ∀ l ∈ preS, 'S' ∉ l)
    (hpreS2 : 'S' ∉ preS2)
    (hvalid : ∀ l ∈ rlines t.data, ∀ c ∈ l, validCharP c)
    (hlen : ∀ l ∈ rlines t.data, l.length = L) :
    ∃ srf : Surface, Surface.new t = .ok srf ∧
      srf.heights.length = (rlines t.data).length ∧
      (∀ row ∈ srf.heights, row.length = L) ∧
      srf.width = L ∧
      srf.best_signal = ⟨preE.length, pre.length⟩ ∧
      heightAt srf srf.best_signal = 'z' ∧
      Player.new t = .ok (Player.mk ⟨preS2.length, preS.length⟩ []) ∧
      heightAt srf ⟨preS2.length, preS.length⟩ = 'a' := by
  have hheights : collectE (fun l => collectE convChar l) (rlines t.data)
      = .ok ((rlines t.data).map (fun l => l.map convPure)) :=
    collectE_ok_map (fun l hl =>
      collectE_ok_map (fun c hc => convChar_ok_of_valid (hvalid l hl c hc)))
  have hcontE : containsC 'E' lE = true := by
    rw [hlineE]
    exact containsC_eq_true.mpr (List.mem_append_right _ (List.mem_cons_self _ _))
  have hcontsE : ∀ x ∈ pre, containsC 'E' x = false :=
    fun x hx => containsC_eq_false (hpreE x hx)
  have hcontS : containsC 'S' lS = true := by
    rw [hlineS]
    exact containsC_eq_true.mpr (List.mem_append_right _ (List.mem_cons_self _ _))
  have hcontsS : ∀ x ∈ preS, containsC 'S' x = false :=
    fun x hx => containsC_eq_false (hpreS x hx)
  have hfl : findLine (containsC 'E') (rlines t.data) = some lE := by
    rw [hdecE]
    exact findLine_first hcontsE hcontE
  have hfi : findIdxC 'E' lE = some preE.length := by
    rw [hlineE]
    exact findIdxC_first hpreE2
  have hfli : findLineIdx (containsC 'E') (rlines t.data) = some pre.length := by
    rw [hdecE]
    exact findLineIdx_first hcontsE hcontE
  have hflS : findLine (containsC 'S') (rlines t.data) = some lS := by
    rw [hdecS]
    exact findLine_first hcontsS hcontS
  have hfiS : findIdxC 'S' lS = some preS2.length := by
    rw [hlineS]
    exact findIdxC_first hpreS2
  have hfliS : findLineIdx (containsC 'S') (rlines t.data) = some preS.length := by
    rw [hdecS]
    exact findLineIdx_first hcontsS hcontS
  refine ⟨Surface.mk ⟨preE.length, pre.length⟩
      ((rlines t.data).map (fun l => l.map convPure)), ?_, ?_, ?_, ?_, rfl, ?_, ?_, ?_⟩
  · simp only [Surface.new, hheights, hfl, hfi, hfli]
  · exact List.length_map _ _
  · intro row hrow
    rcases List.mem_map.mp hrow with ⟨l, hl, rfl⟩
    rw [List.length_map]
    exact hlen l hl
  · show ((((rlines t.data).map (fun l => l.map convPure)).getD 0 []).length) = L
    rw [hdecE]
    cases pre with
    | nil =>
        simp only [List.nil_append, List.map_cons, List.getD_cons_zero, List.length_map]
        exact hlen lE (by rw [hdecE]; exact List.mem_cons_self _ _)
    | cons p0 ps =>
        simp only [List.cons_append, List.map_cons, List.getD_cons_zero, List.length_map]
        exact hlen p0 (by rw [hdecE]; exact List.mem_cons_self _ _)
  · show ((((rlines t.data).map (fun l => l.map convPure)).getD pre.length []).getD
      preE.length (Char.ofNat 0)) = 'z'
    rw [hdecE, List.map_append, List.map_cons,
      show pre.length = (pre.map (fun l => l.map convPure)).length from
        (List.length_map _ _).symm,
      getD_append_length, hlineE, List.map_append, List.map_cons,
      show preE.length = (preE.map convPure).length from (List.length_map _ _).symm,
      getD_append_length]
    decide
  · simp only [Player.new, hflS, hfiS, hfliS]
  · show ((((rlines t.data).map (fun l => l.map convPure)).getD preS.length []).getD
      preS2.length (Char.ofNat 0)) = 'a'
    rw [hdecS, List.map_append, List.map_cons,
      show preS.length = (preS.map (fun l => l.map convPure)).length from
        (List.length_map _ _).symm,
      getD_append_length, hlineS, List.map_append, List.map_cons,
      show preS2.length = (preS2.map convPure).length from (List.length_map _ _).symm,
      getD_append_length]
    decide

/-- Witness for C5 at the canonical grid: the target `'E'` sits at column
5 of line 2, the start `'S'` at column 0 of line 0, all lines length 8. -/
theorem c5_surface_new_valid_parse_witness :
    ∃ srf : Surface, Surface.new canonical = .ok srf ∧
      srf.heights.length = (rlines canonical.data).length ∧
      (∀ row ∈ srf.heights, row.length = 8) ∧
      srf.width = 8 ∧
      srf.best_signal = ⟨5, 2⟩ ∧
      heightAt srf srf.best_signal = 'z' ∧
      Player.new canonical = .ok (Player.mk ⟨0, 0⟩ []) ∧
      heightAt srf ⟨0, 0⟩ = 'a' :=
  c5_surface_new_valid_parse canonical 8
    [("Sabqponm").data, ("abcryxxl").data] [("acctuvwj").data, ("abdefghi").data]
    ("accszExk").data ("accsz").data ("xk").data
    [] [("abcryxxl").data, ("accszExk").data, ("acctuvwj").data, ("abdefghi").data]
    ("Sabqponm").data [] ("abqponm").data
    (by decide) (by decide) (by decide) (by decide) (by decide) (by decide)
    (by decide) (by decide) (by decide) (by decide)

/-- **C4**: on a rectangular lowercase surface, from an in-bounds
position, `available_moves` returns a move iff its destination is the
in-grid neighbour in that direction and the legality rule holds: ascend
`next ≤ cur + 1`, descend `next ≥ cur − 1`. -/
theorem c4_available_moves_exactly_legal (s : Surface) (p : Player) (up : Bool)
    (hrect : Rectangular s) (hlc : LowercaseHeights s) (hb : InBounds s p.position) :
    ∀ m : Move, m ∈ p.available_moves s up ↔
      ∃ q, specNeighbor s p.position m = some q ∧
        specLegal up (heightAt s p.position) (heightAt s q) :=
  mem_available_moves_spec hrect hlc hb

/-- Witness for C4: a concrete 2×2 grid, ascend mode, the right move. -/
theorem c4_available_moves_exactly_legal_witness :
    Move.right ∈ (Player.mk ⟨0, 0⟩ []).available_moves
        (Surface.mk ⟨1, 1⟩ [['a', 'b'], ['a', 'z']]) true ↔
      ∃ q, specNeighbor (Surface.mk ⟨1, 1⟩ [['a', 'b'], ['a', 'z']]) ⟨0, 0⟩
            Move.right = some q ∧
        specLegal true
          (heightAt (Surface.mk ⟨1, 1⟩ [['a', 'b'], ['a', 'z']]) ⟨0, 0⟩)
          (heightAt (Surface.mk ⟨1, 1⟩ [['a', 'b'], ['a', 'z']]) q) :=
  c4_available_moves_exactly_legal (Surface.mk ⟨1, 1⟩ [['a', 'b'], ['a', 'z']])
    (Player.mk ⟨0, 0⟩ []) true (by decide) (by decide) (by decide) Move.right

/-- **C6**: move legality is symmetric under direction reversal: for
adjacent cells `pa` and `pb` of a rectangular lowercase surface, the move
`pa → pb` is legal in ascend mode iff the reverse move `pb → pa` is legal
in descend mode (the visited set plays no role). -/
theorem c6_legality_symmetric (s : Surface) (pa pb : Position) (m : Move)
    (prevA prevB : List Position)
    (hrect : Rectangular s) (hlc : LowercaseHeights s) (hba : InBounds s pa)
    (hn : specNeighbor s pa m = some pb) :
    (m ∈ (Player.mk pa prevA).available_moves s true ↔
      oppMove m ∈ (Player.mk pb prevB).available_moves s false) := by
  obtain ⟨hx, hy⟩ := hba
  cases m
  case up =>
    simp only [specNeighbor] at hn
    by_cases hg : 0 < pa.y
    · rw [if_pos hg] at hn
      cases Option.some.inj hn
      have e1 := mem_avail_of_neighbor s (Player.mk pa prevA) true hrect hlc ⟨hx, hy⟩
        Move.up ⟨pa.x, pa.y - 1⟩
        (by show (if 0 < pa.y then some (Position.mk pa.x (pa.y - 1)) else none) = _
            rw [if_pos hg])
      have e2 := mem_avail_of_neighbor s (Player.mk ⟨pa.x, pa.y - 1⟩ prevB) false hrect hlc
        ⟨hx, show pa.y - 1 < s.height by omega⟩ Move.down pa
        (by show (if pa.y - 1 + 1 < s.height then some (Position.mk pa.x (pa.y - 1 + 1))
              else none) = some pa
            rw [show pa.y - 1 + 1 = pa.y by omega, if_pos hy])
      rw [show oppMove Move.up = Move.down from rfl, e1, e2]
      exact specLegal_reverse
    · rw [if_neg hg] at hn
      exact absurd hn (by simp)
  case down =>
    simp only [specNeighbor] at hn
    by_cases hg : pa.y + 1 < s.height
    · rw [if_pos hg] at hn
      cases Option.some.inj hn
      have e1 := mem_avail_of_neighbor s (Player.mk pa prevA) true hrect hlc ⟨hx, hy⟩
        Move.down ⟨pa.x, pa.y + 1⟩
        (by show (if pa.y + 1 < s.height then some (Position.mk pa.x (pa.y + 1)) else none) = _
            rw [if_pos hg])
      have e2 := mem_avail_of_neighbor s (Player.mk ⟨pa.x, pa.y + 1⟩ prevB) false hrect hlc
        ⟨hx, hg⟩ Move.up pa
        (by show (if 0 < pa.y + 1 then some (Position.mk pa.x (pa.y + 1 - 1)) else none)
              = some pa
            rw [if_pos (Nat.succ_pos pa.y), show pa.y + 1 - 1 = pa.y by omega])
      rw [show oppMove Move.down = Move.up from rfl, e1, e2]
      exact specLegal_reverse
    · rw [if_neg hg] at hn
      exact absurd hn (by simp)
  case left =>
    simp only [specNeighbor] at hn
    by_cases hg : 0 < pa.x
    · rw [if_pos hg] at hn
      cases Option.some.inj hn
      have e1 := mem_avail_of_neighbor s (Player.mk pa prevA) true hrect hlc ⟨hx, hy⟩
        Move.left ⟨pa.x - 1, pa.y⟩
        (by show (if 0 < pa.x then some (Position.mk (pa.x - 1) pa.y) else none) = _
            rw [if_pos hg])
      have e2 := mem_avail_of_neighbor s (Player.mk ⟨pa.x - 1, pa.y⟩ prevB) false hrect hlc
        ⟨show pa.x - 1 < s.width by omega, hy⟩ Move.right pa
        (by show (if pa.x - 1 + 1 < s.width then some (Position.mk (pa.x - 1 + 1) pa.y)
              else none) = some pa
            rw [show pa.x - 1 + 1 = pa.x by omega, if_pos hx])
      rw [show oppMove Move.left = Move.right from rfl, e1, e2]
      exact specLegal_reverse
    · rw [if_neg hg] at hn
      exact absurd hn (by simp)
  case right =>
    simp only [specNeighbor] at hn
    by_cases hg : pa.x + 1 < s.width
    · rw [if_pos hg] at hn
      cases Option.some.inj hn
      have e1 := mem_avail_of_neighbor s (Player.mk pa prevA) true hrect hlc ⟨hx, hy⟩
        Move.right ⟨pa.x + 1, pa.y⟩
        (by show (if pa.x + 1 < s.width then some (Position.mk (pa.x + 1) pa.y) else none) = _
            rw [if_pos hg])
      have e2 := mem_avail_of_neighbor s (Player.mk ⟨pa.x + 1, pa.y⟩ prevB) false hrect hlc
        ⟨hg, hy⟩ Move.left pa
        (by show (if 0 < pa.x + 1 then some (Position.mk (pa.x + 1 - 1) pa.y) else none)
              = some pa
            rw [if_pos (Nat.succ_pos pa.x), show pa.x + 1 - 1 = pa.x by omega])
      rw [show oppMove Move.right = Move.left from rfl, e1, e2]
      exact specLegal_reverse
    · rw [if_neg hg] at hn
      exact absurd hn (by simp)

/-- Witness for C6: the adjacent cells (0,0) and (1,0) of a 2×2 grid. -/
theorem c6_legality_symmetric_witness :
    (Move.right ∈ (Player.mk ⟨0, 0⟩ []).available_moves
        (Surface.mk ⟨1, 1⟩ [['a', 'b'], ['a', 'z']]) true ↔
      oppMove Move.right ∈ (Player.mk ⟨1, 0⟩ []).available_moves
        (Surface.mk ⟨1, 1⟩ [['a', 'b'], ['a', 'z']]) false) :=
  c6_legality_symmetric (Surface.mk ⟨1, 1⟩ [['a', 'b'], ['a', 'z']]) ⟨0, 0⟩ ⟨1, 0⟩
    Move.right [] [] (by decide) (by decide) (by decide) (by decide)

/-- **C9**: the list returned by `available_moves` is ordered by the
elevation of each move's destination cell, highest first. -/
theorem c9_moves_sorted_by_destination (s : Surface) (p : Player) (up : Bool)
    (hrect : Rectangular s) (hlc : LowercaseHeights s) (hb : InBounds s p.position)
    (hw : s.width ≤ usizeMax) (hh : s.height ≤ usizeMax) :
    ((p.available_moves s up).map
      (fun m => (heightAt s ((p.step m).position)).toNat)).Sorted (· ≥ ·) := by
  have hsnd := candidate_snd_eq s p up hrect hlc hb hw hh
  rw [Player.available_moves, List.map_map]
  have hmaps : ((sortByKey (candidate_moves p s up)).reverse).map
      ((fun m => (heightAt s ((p.step m).position)).toNat) ∘ Prod.fst)
      = ((sortByKey (candidate_moves p s up)).reverse).map (fun y => u8 y.2) := by
    apply List.map_congr_left
    intro a ha
    rw [List.mem_reverse, mem_sortByKey] at ha
    exact (hsnd a ha).symm
  rw [hmaps, List.map_reverse]
  exact (List.pairwise_reverse).mpr (sortByKey_sorted (candidate_moves p s up))

/-- Witness for C9 at a concrete 2×2 grid. -/
theorem c9_moves_sorted_by_destination_witness :
    (((Player.mk ⟨0, 0⟩ []).available_moves
        (Surface.mk ⟨1, 1⟩ [['a', 'b'], ['a', 'z']]) true).map
      (fun m => (heightAt (Surface.mk ⟨1, 1⟩ [['a', 'b'], ['a', 'z']])
        (((Player.mk ⟨0, 0⟩ []).step m).position)).toNat)).Sorted (· ≥ ·) :=
  c9_moves_sorted_by_destination (Surface.mk ⟨1, 1⟩ [['a', 'b'], ['a', 'z']])
    (Player.mk ⟨0, 0⟩ []) true (by decide) (by decide) (by decide) (by decide) (by decide)

/-- **C10**: `Player::step` does no bounds checking — stepping up at
`y = 0` (or left at `x = 0`) wraps the `usize` coordinate to
`usize::MAX`, and stepping right (down) on the far edge moves past the
grid's width (height); but every move returned by `available_moves` from
an in-bounds position steps to an in-bounds position, so legality is the
safety precondition of `step`. -/
theorem c10_step_no_bounds_check :
    (∀ p : Player, p.position.y = 0 → (p.step Move.up).position.y = usizeMax)
  ∧ (∀ p : Player, p.position.x = 0 → (p.step Move.left).position.x = usizeMax)
  ∧ (∀ (p : Player) (s : Surface), s.width ≤ usizeMax → p.position.x + 1 = s.width →
       ¬ (p.step Move.right).position.x < s.width)
  ∧ (∀ (p : Player) (s : Surface), s.height ≤ usizeMax → p.position.y + 1 = s.height →
       ¬ (p.step Move.down).position.y < s.height)
  ∧ (∀ (s : Surface) (p : Player) (up : Bool) (m : Move),
       s.width ≤ usizeMax → s.height ≤ usizeMax → InBounds s p.position →
       m ∈ p.available_moves s up → InBounds s (p.step m).position) := by
  refine ⟨?_, ?_, ?_, ?_, ?_⟩
  · intro p h
    show wsub1 p.position.y = usizeMax
    rw [h]
    rfl
  · intro p h
    show wsub1 p.position.x = usizeMax
    rw [h]
    rfl
  · intro p s hw h
    show ¬ wadd1 p.position.x < s.width
    unfold wadd1
    rw [Nat.mod_eq_of_lt (show p.position.x + 1 < U by
      have := lt_U_of_le_usizeMax hw; omega)]
    omega
  · intro p s hh h
    show ¬ wadd1 p.position.y < s.height
    unfold wadd1
    rw [Nat.mod_eq_of_lt (show p.position.y + 1 < U by
      have := lt_U_of_le_usizeMax hh; omega)]
    omega
  · intro s p up m hw hh hb hmem
    obtain ⟨hx, hy⟩ := hb
    obtain ⟨h, hpair⟩ := mem_available_moves_pair.mp hmem
    rw [mem_candidate_iff] at hpair
    rcases hpair with ⟨rfl, hg, _, _⟩ | ⟨rfl, hg, _, _⟩ | ⟨rfl, hg, _, _⟩ | ⟨rfl, hg, _, _⟩
    · have hg2 : p.position.x + 1 < s.width := by
        unfold wsub1 at hg
        rw [if_neg (show ¬ s.width = 0 by omega)] at hg
        omega
      refine ⟨?_, hy⟩
      show wadd1 p.position.x < s.width
      unfold wadd1
      rw [Nat.mod_eq_of_lt (Nat.lt_trans hg2 (lt_U_of_le_usizeMax hw))]
      exact hg2
    · refine ⟨?_, hy⟩
      show wsub1 p.position.x < s.width
      unfold wsub1
      rw [if_neg (show ¬ p.position.x = 0 by omega)]
      omega
    · have hg2 : p.position.y + 1 < s.height := by
        unfold wsub1 at hg
        rw [if_neg (show ¬ s.height = 0 by omega)] at hg
        omega
      refine ⟨hx, ?_⟩
      show wadd1 p.position.y < s.height
      unfold wadd1
      rw [Nat.mod_eq_of_lt (Nat.lt_trans hg2 (lt_U_of_le_usizeMax hh))]
      exact hg2
    · refine ⟨hx, ?_⟩
      show wsub1 p.position.y < s.height
      unfold wsub1
      rw [if_neg (show ¬ p.position.y = 0 by omega)]
      omega

/-! ### Distance-map monotonicity (C7) -/

lemma getD_set {α : Type} {l : List α} {i j : Nat} {a d : α} :
    (l.set i a).getD j d = if i = j ∧ j < l.length then a else l.getD j d := by
  induction l generalizing i j with
  | nil => simp
  | cons x xs ih =>
      cases i with
      | zero =>
          cases j with
          | zero => simp
          | succ jj => simp
      | succ ii =>
          cases j with
          | zero => simp
          | succ jj =>
              simp only [List.set_cons_succ, List.getD_cons_succ, List.length_cons, ih]
              have hcond : (ii = jj ∧ jj < xs.length) ↔
                  (ii + 1 = jj + 1 ∧ jj + 1 < xs.length + 1) := by omega
              rw [if_congr hcond rfl rfl]

/-- A write of a value no larger than the recorded one never increases any
cell of the distance map. -/
lemma dget_dset_le {d : Distmap} {pos : Position} {v : Nat} (hv : v ≤ dget d pos) :
    ∀ q, dget (dset d pos v) q ≤ dget d q := by
  intro q
  show ((d.set pos.y ((d.getD pos.y []).set pos.x v)).getD q.y []).getD q.x 0 ≤
    (d.getD q.y []).getD q.x 0
  rw [getD_set]
  split
  case isTrue h =>
    rw [← h.1, getD_set]
    split
    case isTrue h2 =>
      rw [← h2.1]
      exact hv
    case isFalse h2 => exact Nat.le_refl _
  case isFalse h => exact Nat.le_refl _

/-- The move loop only ever shrinks distance-map entries, provided each
recursive call does. -/
lemma goMoves_dget_le (sp : Player → Nat → Distmap → Res) (p : Player)
    (hsp : ∀ (p2 : Player) (m2 : Nat) (d2 : Distmap) (r2 : Nat) (d3 : Distmap),
      sp p2 m2 d2 = .ok r2 d3 → ∀ q, dget d3 q ≤ dget d2 q) :
    ∀ (ms : List Move) (newMax : Nat) (d : Distmap) (paths : List Nat) (r : Nat)
      (dOut : Distmap), goMoves sp p ms newMax d paths = .ok r dOut →
      ∀ q, dget dOut q ≤ dget d q := by
  intro ms
  induction ms with
  | nil =>
      intro newMax d paths r dOut hgo q
      simp only [goMoves] at hgo
      split at hgo
      · injection hgo with h1 h2
        subst h2
        exact Nat.le_refl _
      · cases hgo
  | cons m ms ih =>
      intro newMax d paths r dOut hgo q
      simp only [goMoves] at hgo
      cases hcall : sp (p.step m) newMax d with
      | ok r2 d2 =>
          simp only [hcall] at hgo
          exact Nat.le_trans (ih _ _ _ _ _ hgo q) (hsp _ _ _ _ _ hcall q)
      | panic =>
          simp only [hcall] at hgo
          cases hgo
      | fuelOut =>
          simp only [hcall] at hgo
          cases hgo

/-- Across a whole (fueled) `shortest_path` call, every distance-map cell
of the output is at most its input value. -/
lemma shortest_path_dget_le (s : Surface) (e : Position → Surface → Bool) (u : Bool) :
    ∀ (fuel : Nat) (p : Player) (maxd : Nat) (d : Distmap) (r : Nat) (dOut : Distmap),
      shortest_path s e u fuel p maxd d = .ok r dOut → ∀ q, dget dOut q ≤ dget d q := by
  intro fuel
  induction fuel with
  | zero =>
      intro p maxd d r dOut h q
      cases h
  | succ fuel ih =>
      intro p maxd d r dOut h q
      simp only [shortest_path] at h
      split at h
      case isTrue =>
        injection h with h1 h2
        subst h2
        exact Nat.le_refl _
      case isFalse =>
        split at h
        case isTrue =>
          injection h with h1 h2
          subst h2
          exact Nat.le_refl _
        case isFalse =>
          split at h
          case isTrue =>
            injection h with h1 h2
            subst h2
            exact Nat.le_refl _
          case isFalse =>
            split at h
            case isTrue =>
              injection h with h1 h2
              subst h2
              exact Nat.le_refl _
            case isFalse hnotle =>
              have hv : p.previous.length < dget d p.position := Nat.lt_of_not_le hnotle
              have hle := goMoves_dget_le (shortest_path s e u fuel) p
                (fun p2 m2 d2 r2 d3 hcall q2 => ih p2 m2 d2 r2 d3 hcall q2)
                _ _ _ _ _ _ h q
              exact Nat.le_trans hle (dget_dset_le (Nat.le_of_lt hv) q)

/-- **C7**: the distance map is updated monotonically: any completed
(non-panicking) search call leaves every cell at a value no larger than it
had on entry, and the write a call performs (reached only when the four
guards fail) stores `previous.length`, which is then strictly smaller than
the recorded value — a cell is overwritten only when the new path is
strictly shorter, otherwise the branch returns the sentinel. -/
theorem c7_distmap_monotone :
    (∀ (s : Surface) (e : Position → Surface → Bool) (u : Bool) (fuel : Nat) (p : Player)
       (maxd : Nat) (d : Distmap) (r : Nat) (dOut : Distmap),
       shortest_path s e u fuel p maxd d = .ok r dOut →
       ∀ q : Position, dget dOut q ≤ dget d q)
  ∧ (∀ (s : Surface) (e : Position → Surface → Bool) (p : Player)
       (maxd : Nat) (d : Distmap),
       e p.position s = false → p.position ∉ p.previous →
       ¬ wsub1 maxd ≤ p.previous.length → ¬ dget d p.position ≤ p.previous.length →
       p.previous.length < dget d p.position) :=
  ⟨fun s e u => shortest_path_dget_le s e u,
   fun _ _ _ _ _ _ _ _ h => Nat.lt_of_not_le h⟩

/-- Witness for C7: a completed search on a concrete 2×2 grid leaves the
start cell's distance-map entry no larger than its initial value. -/
theorem c7_distmap_monotone_witness :
    dget [[0, 1], [1, usizeMax]] ⟨0, 0⟩ ≤
      dget (initDistmap (Surface.mk ⟨1, 1⟩ [['a', 'b'], ['a', 'z']])) ⟨0, 0⟩ :=
  c7_distmap_monotone.1 (Surface.mk ⟨1, 1⟩ [['a', 'b'], ['a', 'z']]) at_top true 16
    (Player.mk ⟨0, 0⟩ []) usizeMax
    (initDistmap (Surface.mk ⟨1, 1⟩ [['a', 'b'], ['a', 'z']]))
    usizeMax [[0, 1], [1, usizeMax]] (by decide) ⟨0, 0⟩

/-! ### No revisit within a path (C8) -/

/-- The recursion relation of the search: `shortest_path` recurses from a
state `q` into `q.step m` only when `q`'s position is not in its visited
set (the cycle guard, checked before the loop) and `m` was returned by
`available_moves`; the distance-map and depth prunes only remove
recursions, so every state a search visits is `SearchCall`-reachable from
the initial state. -/
inductive SearchCall (s : Surface) (up : Bool) : Player → Player → Prop where
  | refl (p : Player) : SearchCall s up p p
  | tail {p q : Player} (m : Move) : SearchCall s up p q →
      q.position ∉ q.previous → m ∈ q.available_moves s up →
      SearchCall s up p (q.step m)

/-- **C8**: starting from a duplicate-free visited set, every state the
search can recurse to has a duplicate-free visited set, and whenever the
state passes the cycle guard the whole branch path (visited set plus
current position) is duplicate-free — the search never revisits a
position within a single path. -/
theorem c8_no_revisit (s : Surface) (up : Bool) (p0 q : Player)
    (hreach : SearchCall s up p0 q) (h0 : p0.previous.Nodup) :
    q.previous.Nodup ∧ (q.position ∉ q.previous → (q.position :: q.previous).Nodup) := by
  induction hreach with
  | refl => exact ⟨h0, fun hn => List.nodup_cons.mpr ⟨hn, h0⟩⟩
  | @tail q1 m hre hnotmem hmove ih =>
      have hstep : (q1.step m).previous = q1.position :: q1.previous := by
        show (if q1.position ∈ q1.previous then q1.previous
          else q1.position :: q1.previous) = _
        rw [if_neg hnotmem]
      constructor
      · rw [hstep]
        exact ih.2 hnotmem
      · intro hn
        rw [hstep]
        rw [hstep] at hn
        exact List.nodup_cons.mpr ⟨hn, ih.2 hnotmem⟩

/-- Witness for C8: one recursion step on a concrete 2×2 grid. -/
theorem c8_no_revisit_witness :
    ((Player.mk ⟨0, 0⟩ []).step Move.right).previous.Nodup ∧
      (((Player.mk ⟨0, 0⟩ []).step Move.right).position ∉
          ((Player.mk ⟨0, 0⟩ []).step Move.right).previous →
        (((Player.mk ⟨0, 0⟩ []).step Move.right).position ::
          ((Player.mk ⟨0, 0⟩ []).step Move.right).previous).Nodup) :=
  c8_no_revisit (Surface.mk ⟨1, 1⟩ [['a', 'b'], ['a', 'z']]) true
    (Player.mk ⟨0, 0⟩ []) ((Player.mk ⟨0, 0⟩ []).step Move.right)
    (SearchCall.tail Move.right (SearchCall.refl (Player.mk ⟨0, 0⟩ []))
      (by simp) (by decide))
    (by simp)

/-- Witness for C10: underflow wraps at the origin, the right edge is
overrun, and a legal move from (0,0) stays in bounds on a 2×2 grid. -/
theorem c10_step_no_bounds_check_witness :
    ((Player.mk ⟨3, 0⟩ []).step Move.up).position.y = usizeMax ∧
    ((Player.mk ⟨0, 5⟩ []).step Move.left).position.x = usizeMax ∧
    ¬ ((Player.mk ⟨1, 0⟩ []).step Move.right).position.x <
        (Surface.mk ⟨0, 0⟩ [['a', 'b']]).width ∧
    ¬ ((Player.mk ⟨0, 1⟩ []).step Move.down).position.y <
        (Surface.mk ⟨0, 0⟩ [['a'], ['b']]).height ∧
    InBounds (Surface.mk ⟨1, 1⟩ [['a', 'b'], ['a', 'z']])
      (((Player.mk ⟨0, 0⟩ []).step Move.right).position) :=
  ⟨c10_step_no_bounds_check.1 (Player.mk ⟨3, 0⟩ []) rfl,
   c10_step_no_bounds_check.2.1 (Player.mk ⟨0, 5⟩ []) rfl,
   c10_step_no_bounds_check.2.2.1 (Player.mk ⟨1, 0⟩ [])
     (Surface.mk ⟨0, 0⟩ [['a', 'b']]) (by decide) rfl,
   c10_step_no_bounds_check.2.2.2.1 (Player.mk ⟨0, 1⟩ [])
     (Surface.mk ⟨0, 0⟩ [['a'], ['b']]) (by decide) rfl,
   c10_step_no_bounds_check.2.2.2.2 (Surface.mk ⟨1, 1⟩ [['a', 'b'], ['a', 'z']])
     (Player.mk ⟨0, 0⟩ []) true Move.right (by decide) (by decide) (by decide) (by decide)⟩

end AoC12
